import Mathlib

/-!
Verification development for the `inferattrs` proof-of-concept: tagging every
substructure of an input document with an attribute path, tracing which tagged
values a Rego policy actually uses, collapsing the used paths to the most
specific set, and mapping paths back to YAML source locations.

The definitions below are a shallow embedding of `main.go` (the file the
Makefile builds): `Path`, `PathTree` with `Insert`/`List`, the YAML node walk
of `Source.Location`, the term annotator `annotate`, and the trace observer
`locationTracer` with `traceUnify` and `used`.
-/

set_option maxHeartbeats 1000000

namespace Inferattrs

/-- Go: `type Path []string` — an ordered sequence of object-key strings. -/
abbrev Path := List String

/-- Go: `type PathTree map[string]PathTree`.  A Go map is a finite set of
key-child pairs with distinct keys; we embed it as an association list of
children (the `WF` predicate below records key distinctness). -/
inductive PathTree where
  | node (children : List (String × PathTree))
deriving Inhabited

/-- The empty `PathTree{}` literal. -/
def PathTree.empty : PathTree := .node []

/-- Children list of a tree node. -/
def PathTree.children : PathTree → List (String × PathTree)
  | .node cs => cs

/-- Go map read `tree[k]`: the child registered at key `k`, if any. -/
def getChild : List (String × PathTree) → String → Option PathTree
  | [], _ => none
  | (k1, c) :: cs, k => if k1 = k then some c else getChild cs k

/-- Go map write `tree[k] = c`: replace the entry at key `k`, or add it. -/
def setChild : List (String × PathTree) → String → PathTree → List (String × PathTree)
  | [], k, c => [(k, c)]
  | (k1, c1) :: cs, k, c => if k1 = k then (k, c) :: cs else (k1, c1) :: setChild cs k c

/-- Go: `func (tree PathTree) Insert(path Path)`.  An empty path is a no-op;
otherwise the child at the head segment is created empty when missing and the
tail is inserted into it. -/
def PathTree.insert : PathTree → Path → PathTree
  | t, [] => t
  | .node cs, k :: rest =>
      .node (setChild cs k (((getChild cs k).getD PathTree.empty).insert rest))

/-- A finite sequence of `Insert` calls, in order. -/
def insertAll (ps : List Path) (t : PathTree) : PathTree :=
  ps.foldl PathTree.insert t

/-- `Insert` of the same path `n` times in a row. -/
def insertTimes (t : PathTree) (p : Path) : Nat → PathTree
  | 0 => t
  | n + 1 => (insertTimes t p n).insert p

mutual
/-- Go: `func (tree PathTree) List() []Path`.  A childless node yields the
single empty path; otherwise every child path is prepended with its key. -/
def PathTree.list : PathTree → List Path
  | .node [] => [[]]
  | .node (c :: cs) => listChildren (c :: cs)

/-- The loop body of `PathTree.List`: concatenate, over each child `(k, c)`,
the paths of `c` each prepended with `k`. -/
def listChildren : List (String × PathTree) → List Path
  | [] => []
  | (k, c) :: cs => (c.list.map (fun p => k :: p)) ++ listChildren cs
end

/-- The trie stores the chain of segments of `p`: each segment in turn has a
registered child.  This is what a successful `Insert` of `p` establishes. -/
def PathTree.hasChain : PathTree → Path → Bool
  | _, [] => true
  | .node cs, k :: rest =>
      match getChild cs k with
      | some c => c.hasChain rest
      | none => false

mutual
/-- Well-formedness transported from Go maps: at every node the keys of the
children are pairwise distinct. -/
def PathTree.WF : PathTree → Prop
  | .node cs => (cs.map Prod.fst).Nodup ∧ ChildrenWF cs

/-- All children in the list are well-formed. -/
def ChildrenWF : List (String × PathTree) → Prop
  | [] => True
  | (_, c) :: cs => PathTree.WF c ∧ ChildrenWF cs
end

/-- Kinds of `yaml.Node` (gopkg.in/yaml.v3) that `Source.Location` inspects. -/
inductive YamlKind where
  | document
  | mapping
  | sequence
  | scalar
  | aliasNode
deriving DecidableEq

/-- A `yaml.Node`: its kind, scalar value, 1-based line and column, and the
content list (for mappings: alternating key and value nodes). -/
inductive YamlNode where
  | mk (kind : YamlKind) (value : String) (line column : Nat)
       (content : List YamlNode)

/-- Kind accessor. -/
def YamlNode.kind : YamlNode → YamlKind
  | .mk k _ _ _ _ => k

/-- Value accessor. -/
def YamlNode.value : YamlNode → String
  | .mk _ v _ _ _ => v

/-- Line accessor. -/
def YamlNode.line : YamlNode → Nat
  | .mk _ _ l _ _ => l

/-- Column accessor. -/
def YamlNode.column : YamlNode → Nat
  | .mk _ _ _ c _ => c

/-- Content accessor. -/
def YamlNode.content : YamlNode → List YamlNode
  | .mk _ _ _ _ cs => cs

/-- Go: `type Location struct { File string; Line, Column int }`. -/
structure Location where
  File : String
  Line : Nat
  Column : Nat
deriving DecidableEq

/-- Go: `type Source struct { file string; root *yaml.Node }`. -/
structure Source where
  file : String
  root : YamlNode

/-- Outcome of running the `Source.Location` loop with bounded fuel:
either the loop exits with a final cursor, or an index access panics, or the
fuel runs out (the Go loop would still be running). -/
inductive LoopOut where
  | done (cursor : YamlNode)
  | panicked
  | outOfFuel

/-- The inner loop of the `yaml.MappingNode` case of `Source.Location`:
`for i := 0; i < len(cursor.Content); i += 2` comparing `cursor.Content[i].Value`
with `path[0]` and, on a match, rebinding `cursor` and `path` while the loop
keeps running against the new `cursor.Content`.  Accessing `path[0]` on an
empty path or `cursor.Content[i+1]` out of range is a Go panic (`none`). -/
def mappingScan (i : Nat) (cursor : YamlNode) (path : Path) :
    Option (YamlNode × Path) :=
  if h : i < cursor.content.length then
    match path with
    | [] => none
    | seg :: restPath =>
      if (cursor.content.get ⟨i, h⟩).value = seg then
        match cursor.content[i+1]? with
        | some next => mappingScan (i + 2) next restPath
        | none => none
      else
        mappingScan (i + 2) cursor (seg :: restPath)
  else
    some (cursor, path)
termination_by (path.length, cursor.content.length - i)
decreasing_by
  all_goals simp_wf
  all_goals simp only [Prod.lex_def, List.length_cons]
  · omega
  · exact Or.inr ⟨trivial, Nat.sub_lt_sub_left h (by omega)⟩

/-- Go: the `for len(path) > 0` loop of `func (source *Source) Location`,
with explicit fuel bounding the number of outer iterations. -/
def locLoop : Nat → YamlNode → Path → LoopOut
  | _, cursor, [] => .done cursor
  | 0, _, _ :: _ => .outOfFuel
  | fuel + 1, cursor, seg :: rest =>
    match cursor.kind with
    | .document =>
      match cursor.content with
      | c0 :: _ => locLoop fuel c0 (seg :: rest)
      | [] => .panicked
    | .mapping =>
      match mappingScan 0 cursor (seg :: rest) with
      | some (c2, p2) => locLoop fuel c2 p2
      | none => .panicked
    | _ => locLoop fuel cursor (seg :: rest)

/-- Result of `Source.Location` under bounded fuel. -/
inductive LocResult where
  | ok (l : Location)
  | panicked
  | outOfFuel
deriving DecidableEq

/-- Go: `func (source *Source) Location(path Path) *Location`, run with the
given fuel; on loop exit the file together with the final cursor's line and
column is returned. -/
def Source.LocationFuel (source : Source) (fuel : Nat) (path : Path) : LocResult :=
  match locLoop fuel source.root path with
  | .done cursor => .ok ⟨source.file, cursor.line, cursor.column⟩
  | .panicked => .panicked
  | .outOfFuel => .outOfFuel

/-- No key entry (even index) of a mapping's content equals `seg`. -/
def NoKeyMatch (content : List YamlNode) (seg : String) : Prop :=
  ∀ j, (hj : j < content.length) → j % 2 = 0 → (content.get ⟨j, hj⟩).value ≠ seg

/-- A dead end of the descent: the cursor is a scalar or sequence node, or a
mapping none of whose keys equals the next path segment. -/
def DeadEnd (cursor : YamlNode) (seg : String) : Prop :=
  cursor.kind = .scalar ∨ cursor.kind = .sequence ∨
    (cursor.kind = .mapping ∧ NoKeyMatch cursor.content seg)

/-- The key scan of the `yaml.MappingNode` case of the draft `location` in
`infer.go`: the value node following the first key node (at an even index)
whose value equals `seg`. -/
def findMappingValue : List YamlNode → String → Option YamlNode
  | [], _ => none
  | [_], _ => none
  | k :: v :: rest, seg =>
      if k.value = seg then some v else findMappingValue rest seg

/-- Go: `func location(file string, node *yaml.Node, path Path) *loc` from the
earlier draft `infer.go`: the recursive descent that stops at dead ends and
returns the location of the last node reached. -/
def locationRec (file : String) (node : YamlNode) (path : Path) : Location :=
  match node, path with
  | .mk _ _ l c _, [] => ⟨file, l, c⟩
  | .mk .document _ _ _ (c0 :: _), seg :: rest => locationRec file c0 (seg :: rest)
  | .mk .document _ l c [], _ :: _ => ⟨file, l, c⟩
  | .mk .mapping _ l c content, seg :: rest =>
      match findMappingValue content seg with
      | some next => locationRec file next rest
      | none => ⟨file, l, c⟩
  | .mk _ _ l c _, _ :: _ => ⟨file, l, c⟩
termination_by (path.length, sizeOf node)

/-! ### JSON serialization of paths

`annotate` stores `"path:" + json.Marshal(path)` in the term's location file
field and `used` recovers the path with `json.Unmarshal`.  The codec below
models Go's `encoding/json` for a `[]string` value: strings are quoted with
`"`, `\`, `\n`, `\r`, `\t` escaped by backslash, other control characters and
the HTML-escape set `<`, `>`, `&` (and U+2028/U+2029) written as `\uXXXX`
with lowercase hex digits. -/

/-- Lowercase hexadecimal digit for `n < 16`. -/
def hexDigit (n : Nat) : Char :=
  if n < 10 then Char.ofNat (48 + n) else Char.ofNat (87 + n)

/-- Numeric value of a hexadecimal digit character. -/
def hexVal (c : Char) : Option Nat :=
  if 48 ≤ c.toNat ∧ c.toNat ≤ 57 then some (c.toNat - 48)
  else if 97 ≤ c.toNat ∧ c.toNat ≤ 102 then some (c.toNat - 87)
  else if 65 ≤ c.toNat ∧ c.toNat ≤ 70 then some (c.toNat - 55)
  else none

/-- Whether `encoding/json` writes this character as a `\uXXXX` escape. -/
def needsHexEscape (c : Char) : Prop :=
  c.toNat < 32 ∨ c = '<' ∨ c = '>' ∨ c = '&' ∨ c.toNat = 8232 ∨ c.toNat = 8233

instance (c : Char) : Decidable (needsHexEscape c) := by
  unfold needsHexEscape
  infer_instance

/-- JSON encoding of one character inside a quoted string. -/
def encodeChar (c : Char) : List Char :=
  if c = '"' then ['\\', '"']
  else if c = '\\' then ['\\', '\\']
  else if c = '\n' then ['\\', 'n']
  else if c = '\r' then ['\\', 'r']
  else if c = '\t' then ['\\', 't']
  else if needsHexEscape c then
    ['\\', 'u', hexDigit (c.toNat / 4096 % 16), hexDigit (c.toNat / 256 % 16),
     hexDigit (c.toNat / 16 % 16), hexDigit (c.toNat % 16)]
  else [c]

/-- JSON escape of a whole string body. -/
def escapeString : List Char → List Char
  | [] => []
  | c :: s => encodeChar c ++ escapeString s

/-- A JSON string literal: the escaped body between double quotes. -/
def quoteString (s : List Char) : List Char :=
  '"' :: (escapeString s ++ ['"'])

/-- The remaining items of a JSON array, each preceded by a comma. -/
def moreItems : List (List Char) → List Char
  | [] => []
  | s :: rest => ',' :: (quoteString s ++ moreItems rest)

/-- `json.Marshal` of a (non-nil) `[]string` value. -/
def encodePath : List (List Char) → List Char
  | [] => ['[', ']']
  | s :: rest => '[' :: ((quoteString s ++ moreItems rest) ++ [']'])

/-- JSON short escapes: the inverse of the backslash-letter forms. -/
def unescapeChar (c : Char) : Option Char :=
  if c = '"' then some '"'
  else if c = '\\' then some '\\'
  else if c = '/' then some '/'
  else if c = 'n' then some '\n'
  else if c = 'r' then some '\r'
  else if c = 't' then some '\t'
  else if c = 'b' then some (Char.ofNat 8)
  else if c = 'f' then some (Char.ofNat 12)
  else none

/-- Parse the body of a JSON string up to and including the closing quote,
returning the decoded body and the rest of the input. -/
def parseStringBody : List Char → Option (List Char × List Char)
  | [] => none
  | c :: rest =>
    if c = '"' then some ([], rest)
    else if c = '\\' then
      match rest with
      | [] => none
      | e :: rest2 =>
        if e = 'u' then
          match rest2 with
          | h1 :: h2 :: h3 :: h4 :: rest3 =>
            match hexVal h1, hexVal h2, hexVal h3, hexVal h4 with
            | some a, some b, some v3, some d =>
              match parseStringBody rest3 with
              | some (s, r) =>
                  some (Char.ofNat (((a * 16 + b) * 16 + v3) * 16 + d) :: s, r)
              | none => none
            | _, _, _, _ => none
          | _ => none
        else
          match unescapeChar e with
          | some d =>
            match parseStringBody rest2 with
            | some (s, r) => some (d :: s, r)
            | none => none
          | none => none
    else
      match parseStringBody rest with
      | some (s, r) => some (c :: s, r)
      | none => none

/-- Parse the items of a JSON array of strings after the opening `[`,
including the closing `]`, requiring the input to end there.  The fuel bounds
the number of items; `decodePath` passes the input length, which always
suffices. -/
def parseItems : Nat → List Char → Option (List (List Char))
  | _, [] => none
  | 0, _ :: _ => none
  | fuel + 1, c :: rest =>
    if c = '"' then
      match parseStringBody rest with
      | some (s, r) =>
        match r with
        | ']' :: [] => some [s]
        | ',' :: r2 =>
          match parseItems fuel r2 with
          | some items => some (s :: items)
          | none => none
        | _ => none
      | none => none
    else none

/-- `json.Unmarshal` of a `[]string` value (as used by `used` on the encoded
path): an empty array or a bracketed comma-separated list of strings. -/
def decodePath (l : List Char) : Option (List (List Char)) :=
  match l with
  | '[' :: rest => if rest = [']'] then some [] else parseItems rest.length rest
  | _ => none

/-- Marshal a `Path` (Go `[]string`) to JSON text. -/
def encodePathS (p : Path) : List Char :=
  encodePath (p.map String.toList)

/-- Unmarshal JSON text to a `Path`. -/
def decodePathS (l : List Char) : Option Path :=
  (decodePath l).map (fun items => items.map (fun cs => String.mk cs))

/-- The file field `annotate` writes: `"path:" + json.Marshal(path)`. -/
def pathFile (p : Path) : List Char :=
  'p' :: 'a' :: 't' :: 'h' :: ':' :: encodePathS p

/-- The same file field as a `String`. -/
def pathFileS (p : Path) : String :=
  String.mk (pathFile p)

/-- Go `strings.TrimPrefix(file, "path:")` together with the `!=` test in
`used`: the remainder when the file field begins with `path:`. -/
def stripPathTag : List Char → Option (List Char)
  | 'p' :: 'a' :: 't' :: 'h' :: ':' :: rest => some rest
  | _ => none

/-- The decode step of `used`: strip the `path:` marker and unmarshal. -/
def decodeLoc (f : String) : Option Path :=
  match stripPathTag f.toList with
  | some v => decodePathS v
  | none => none

/-! ### OPA terms and the annotator

An `ast.Term` couples a value with an optional `ast.Location`; `annotate` and
`used` read and write only the location's `File` field, so the metadata slot
is embedded as that field.  Values are scalars, objects (lists of key-value
term pairs — object keys are themselves terms), arrays and sets. -/

mutual
/-- An `ast.Term`: a value plus the location metadata slot (its `File`). -/
inductive Term where
  | mk (value : Value) (loc : Option String) : Term

/-- An `ast.Value` as far as `annotate` distinguishes them. -/
inductive Value where
  | str : String → Value
  | num : Int → Value
  | boolean : Bool → Value
  | nullv : Value
  | obj : Fields → Value
  | arr : Terms → Value
  | set : Terms → Value

/-- The key-value pairs of an `ast.Object`, in key order. -/
inductive Fields where
  | nil : Fields
  | cons (key : Term) (val : Term) (rest : Fields) : Fields

/-- A list of terms (array or set elements). -/
inductive Terms where
  | nil : Terms
  | cons (head : Term) (rest : Terms) : Terms
end

/-- The value of a term. -/
def Term.value : Term → Value
  | .mk v _ => v

/-- The location metadata slot of a term. -/
def Term.loc : Term → Option String
  | .mk _ l => l

/-- Whether a value is an `ast.Object`. -/
def Value.isObj : Value → Bool
  | .obj _ => true
  | _ => false

mutual
/-- Go: `func annotate(path Path, term *ast.Term)` from `main.go`.  The
current term's location is set to `"path:" + json.Marshal(path)`; when the
value is an object, every value under a plain-string key is annotated
recursively with the path extended by that key.  No other value kind is
descended into. -/
def annotate (p : Path) : Term → Term
  | .mk v _ => .mk (annotateValue p v) (some (pathFileS p))

/-- The switch on `term.Value` inside `annotate`. -/
def annotateValue (p : Path) : Value → Value
  | .obj fields => .obj (annotateFields p fields)
  | v => v

/-- The loop over `value.Keys()` inside `annotate`: values under string keys
are annotated with the extended path, other entries are left alone. -/
def annotateFields (p : Path) : Fields → Fields
  | .nil => .nil
  | .cons k v rest =>
    match k with
    | .mk (.str s) _ => .cons k (annotate (p ++ [s]) v) (annotateFields p rest)
    | _ => .cons k v (annotateFields p rest)
end

/-- The value stored in an object under a plain-string key, if any. -/
def findStr : Fields → String → Option Term
  | .nil, _ => none
  | .cons k v rest, s =>
    match k with
    | .mk (.str s1) _ => if s1 = s then some v else findStr rest s
    | _ => findStr rest s

/-- Descend from a term through object entries along a sequence of string
keys. -/
def descend : Term → List String → Option Term
  | t, [] => some t
  | .mk (.obj fields) _, k :: rest =>
    match findStr fields k with
    | some v => descend v rest
    | none => none
  | _, _ :: _ => none

mutual
/-- Erase every location slot in a term, keeping the value structure. -/
def stripLoc : Term → Term
  | .mk v _ => .mk (stripLocValue v) none

/-- Erase locations inside a value. -/
def stripLocValue : Value → Value
  | .obj fields => .obj (stripLocFields fields)
  | .arr ts => .arr (stripLocTerms ts)
  | .set ts => .set (stripLocTerms ts)
  | v => v

/-- Erase locations in object entries (keys and values). -/
def stripLocFields : Fields → Fields
  | .nil => .nil
  | .cons k v rest => .cons (stripLoc k) (stripLoc v) (stripLocFields rest)

/-- Erase locations in a term list. -/
def stripLocTerms : Terms → Terms
  | .nil => .nil
  | .cons t rest => .cons (stripLoc t) (stripLocTerms rest)
end

/-! ### The trace observer -/

/-- Go: `type locationTracer struct { tree PathTree }`. -/
structure locationTracer where
  tree : PathTree

/-- Go: `func newLocationTracer() *locationTracer`. -/
def newLocationTracer : locationTracer :=
  ⟨PathTree.empty⟩

/-- Go: `func (tracer *locationTracer) used(term *ast.Term)`.  When the
term's location is present and its file field begins with `path:`, the
remainder is unmarshalled (`json.Unmarshal`'s error is ignored, leaving the
zero-value nil path on failure) and inserted into the tracer's tree. -/
def locationTracer.used (tracer : locationTracer) (term : Term) : locationTracer :=
  match term.loc with
  | none => tracer
  | some f =>
    match stripPathTag f.toList with
    | none => tracer
    | some v => ⟨tracer.tree.insert ((decodePathS v).getD [])⟩

/-- The two trace event operations the tracer reacts to, and all others. -/
inductive TraceOp where
  | unifyOp
  | evalOp
  | otherOp
deriving DecidableEq

/-- The `Terms` field of an `ast.Expr`: either an ordered term list
(an operator application) or a single term. -/
inductive ExprTerms where
  | list (ts : List Term)
  | single (t : Term)

/-- An `ast.Expr` as far as the tracer inspects it. -/
structure Expr where
  terms : ExprTerms

/-- OPA's `Expr.Operands`: the elements after the operator of an ordered
term list, and nil for a single term. -/
def Expr.operands (e : Expr) : List Term :=
  match e.terms with
  | .list ts => ts.drop 1
  | .single _ => []

/-- A `topdown.Event` as far as the tracer inspects it: its operation, its
node when that node is an `*ast.Expr`, and `event.Plug`, the engine's
resolution of a term's variable bindings to concrete values. -/
structure Event where
  op : TraceOp
  node : Option Expr
  plug : Term → Term

/-- Go: `func (tracer *locationTracer) traceUnify(event *topdown.Event)`:
when the event's node is an expression with exactly two operands, both
plugged operands are passed to `used`. -/
def locationTracer.traceUnify (tracer : locationTracer) (event : Event) :
    locationTracer :=
  match event.node with
  | some expr =>
    match expr.operands with
    | [t1, t2] => (tracer.used (event.plug t1)).used (event.plug t2)
    | _ => tracer
  | none => tracer

/-- Go: `func (tracer *locationTracer) traceEval(event *topdown.Event)`:
for a built-in application every argument is passed to `used` after
plugging; for a single standalone term that term is.  `isBuiltin` stands for
the registry lookup `ast.BuiltinMap[operator.String()]`. -/
def locationTracer.traceEval (isBuiltin : Term → Bool)
    (tracer : locationTracer) (event : Event) : locationTracer :=
  match event.node with
  | some expr =>
    match expr.terms with
    | .list [] => tracer
    | .list (operator :: args) =>
      if isBuiltin operator then
        args.foldl (fun acc t => acc.used (event.plug t)) tracer
      else tracer
    | .single t => tracer.used (event.plug t)
  | none => tracer

/-- Go: `func (tracer *locationTracer) Trace(event *topdown.Event)`: the
dispatch on `event.Op`. -/
def locationTracer.trace (isBuiltin : Term → Bool)
    (tracer : locationTracer) (event : Event) : locationTracer :=
  match event.op with
  | .unifyOp => tracer.traceUnify event
  | .evalOp => locationTracer.traceEval isBuiltin tracer event
  | .otherOp => tracer

/-! ### Concrete sample data used by witnesses -/

/-- The scalar leaf of the sample document. -/
def sampleLeaf : Term := .mk (.str "x") none

/-- A two-level object document: `{a: {b: "x"}}`. -/
def sampleDoc : Term :=
  .mk (.obj (.cons (.mk (.str "a") none)
    (.mk (.obj (.cons (.mk (.str "b") none) sampleLeaf .nil)) none) .nil)) none

/-- A one-level object document: `{a: "x"}`. -/
def flatDoc : Term :=
  .mk (.obj (.cons (.mk (.str "a") none) sampleLeaf .nil)) none

/-- A source whose root node is a bare scalar. -/
def scalarSource : Source :=
  ⟨"template.yml", .mk .scalar "hello" 1 1 []⟩

/-- A unification event between two annotated terms, with identity plug. -/
def sampleEvent : Event :=
  ⟨.unifyOp,
   some ⟨.list [.mk (.str "eq") none,
                .mk (.str "v1") (some (pathFileS ["A"])),
                .mk (.str "v2") (some (pathFileS ["A", "B"]))]⟩,
   fun t => t⟩

/-! ### Codec lemmas: `decodePath` inverts `encodePath` -/

theorem hexVal_hexDigit : ∀ m, m < 16 → hexVal (hexDigit m) = some m := by
  decide

theorem needsHexEscape_lt (c : Char) (h : needsHexEscape c) : c.toNat < 65536 := by
  rcases h with h | h | h | h | h | h
  · omega
  · subst h; decide
  · subst h; decide
  · subst h; decide
  · omega
  · omega

theorem parseStringBody_escape (s : List Char) :
    ∀ k, parseStringBody (escapeString s ++ ('"' :: k)) = some (s, k) := by
  induction s with
  | nil =>
    intro k
    simp only [escapeString, List.nil_append]
    rw [parseStringBody.eq_def]
    simp
  | cons c s ih =>
    intro k
    have tail : parseStringBody (escapeString s ++ ('"' :: k)) = some (s, k) := ih k
    show parseStringBody ((encodeChar c ++ escapeString s) ++ ('"' :: k)) = _
    rw [List.append_assoc]
    by_cases h1 : c = '"'
    · subst h1
      rw [encodeChar.eq_def]
      norm_num
      rw [parseStringBody.eq_def]
      simp [unescapeChar, tail]
    by_cases h2 : c = '\\'
    · subst h2
      rw [encodeChar.eq_def]
      norm_num
      rw [parseStringBody.eq_def]
      simp [unescapeChar, tail]
    by_cases h3 : c = '\n'
    · subst h3
      rw [encodeChar.eq_def]
      norm_num
      rw [parseStringBody.eq_def]
      simp [unescapeChar, tail]
    by_cases h4 : c = '\r'
    · subst h4
      rw [encodeChar.eq_def]
      norm_num
      rw [parseStringBody.eq_def]
      simp [unescapeChar, tail]
    by_cases h5 : c = '\t'
    · subst h5
      rw [encodeChar.eq_def]
      norm_num
      rw [parseStringBody.eq_def]
      simp [unescapeChar, tail]
    by_cases h6 : needsHexEscape c
    · have hlt : c.toNat < 65536 := needsHexEscape_lt c h6
      have e1 : hexVal (hexDigit (c.toNat / 4096 % 16)) = some (c.toNat / 4096 % 16) :=
        hexVal_hexDigit _ (by omega)
      have e2 : hexVal (hexDigit (c.toNat / 256 % 16)) = some (c.toNat / 256 % 16) :=
        hexVal_hexDigit _ (by omega)
      have e3 : hexVal (hexDigit (c.toNat / 16 % 16)) = some (c.toNat / 16 % 16) :=
        hexVal_hexDigit _ (by omega)
      have e4 : hexVal (hexDigit (c.toNat % 16)) = some (c.toNat % 16) :=
        hexVal_hexDigit _ (by omega)
      have harith :
          ((c.toNat / 4096 % 16 * 16 + c.toNat / 256 % 16) * 16 + c.toNat / 16 % 16) * 16
            + c.toNat % 16 = c.toNat := by
        omega
      rw [encodeChar.eq_def]
      simp only [h1, h2, h3, h4, h5, h6, if_false, if_true, if_neg, if_pos]
      rw [parseStringBody.eq_def]
      simp [e1, e2, e3, e4, tail]
      rw [harith, Char.ofNat_toNat]
    · rw [encodeChar.eq_def]
      simp only [h1, h2, h3, h4, h5, h6, if_false, if_true, if_neg, if_pos]
      rw [List.cons_append, parseStringBody.eq_def]
      simp [h1, h2, tail]

theorem quoteString_length (s : List Char) : 2 ≤ (quoteString s).length := by
  simp [quoteString]

theorem moreItems_length :
    ∀ items : List (List Char), 3 * items.length ≤ (moreItems items).length := by
  intro items
  induction items with
  | nil => simp [moreItems]
  | cons s rest ih =>
    have h := quoteString_length s
    simp [moreItems] at *
    omega

theorem parseItems_encode :
    ∀ (items : List (List Char)) (fuel : Nat) (s : List Char), items.length < fuel →
      parseItems fuel (quoteString s ++ (moreItems items ++ [']'])) = some (s :: items) := by
  intro items
  induction items with
  | nil =>
    intro fuel s hf
    cases fuel with
    | zero => omega
    | succ f =>
      simp only [quoteString, moreItems, List.nil_append, List.cons_append,
        List.append_assoc]
      rw [parseItems.eq_def]
      simp [parseStringBody_escape]
  | cons s2 rest ih =>
    intro fuel s hf
    cases fuel with
    | zero => omega
    | succ f =>
      have h2 : rest.length < f := by
        simp only [List.length_cons] at hf
        omega
      have key := ih f s2 h2
      have harr : quoteString s ++ (moreItems (s2 :: rest) ++ [']']) =
          '"' :: (escapeString s ++
            ('"' :: (',' :: (quoteString s2 ++ (moreItems rest ++ [']']))))) := by
        simp only [quoteString, moreItems, List.cons_append, List.append_assoc,
          List.nil_append]
      rw [harr, parseItems.eq_def]
      simp only [if_pos, parseStringBody_escape]
      rw [key]

theorem decodePath_encodePath (items : List (List Char)) :
    decodePath (encodePath items) = some items := by
  cases items with
  | nil => rfl
  | cons s rest =>
    have hshape : encodePath (s :: rest) =
        '[' :: (quoteString s ++ (moreItems rest ++ [']'])) := by
      simp [encodePath, List.append_assoc]
    rw [hshape, decodePath.eq_def]
    have hne : quoteString s ++ (moreItems rest ++ [']']) ≠ [']'] := by
      simp [quoteString]
    have hlen : rest.length < (quoteString s ++ (moreItems rest ++ [']'])).length := by
      have h1 := quoteString_length s
      have h2 := moreItems_length rest
      simp only [List.length_append, List.length_cons, List.length_nil]
      omega
    show (if quoteString s ++ (moreItems rest ++ [']']) = [']'] then some []
      else parseItems (quoteString s ++ (moreItems rest ++ [']'])).length
        (quoteString s ++ (moreItems rest ++ [']']))) = some (s :: rest)
    rw [if_neg hne]
    exact parseItems_encode rest _ s hlen

theorem mk_toList (s : String) : String.mk s.toList = s := rfl

theorem map_mk_toList (p : List String) :
    List.map (fun cs => String.mk cs) (List.map String.toList p) = p := by
  induction p with
  | nil => rfl
  | cons x xs ih =>
    simp only [List.map_cons, mk_toList]
    rw [ih]

theorem decodePathS_encodePathS (p : Path) : decodePathS (encodePathS p) = some p := by
  show (decodePath (encodePath (p.map String.toList))).map _ = some p
  rw [decodePath_encodePath]
  show some (List.map (fun cs => String.mk cs) (List.map String.toList p)) = some p
  rw [map_mk_toList]

/-! ### PathTree lemmas -/

theorem getChild_setChild_self :
    ∀ (cs : List (String × PathTree)) k c, getChild (setChild cs k c) k = some c := by
  intro cs k c
  induction cs with
  | nil => simp [setChild, getChild]
  | cons kc cs ih =>
    obtain ⟨k1, c1⟩ := kc
    by_cases h : k1 = k
    · simp [setChild, h, getChild]
    · simp [setChild, h, getChild, ih]

theorem getChild_setChild_other :
    ∀ (cs : List (String × PathTree)) k c k1, k1 ≠ k →
      getChild (setChild cs k c) k1 = getChild cs k1 := by
  intro cs k c k1 hne
  induction cs with
  | nil => simp [setChild, getChild, Ne.symm hne]
  | cons kc cs ih =>
    obtain ⟨k2, c2⟩ := kc
    by_cases h : k2 = k
    · subst h
      simp [setChild, getChild, Ne.symm hne]
    · simp [setChild, h, getChild, ih]

theorem setChild_setChild :
    ∀ (cs : List (String × PathTree)) k c c2,
      setChild (setChild cs k c) k c2 = setChild cs k c2 := by
  intro cs k c c2
  induction cs with
  | nil => simp [setChild]
  | cons kc cs ih =>
    obtain ⟨k1, c1⟩ := kc
    by_cases h : k1 = k
    · simp [setChild, h]
    · simp [setChild, h, ih]

theorem insert_nil (t : PathTree) : t.insert [] = t := by
  obtain ⟨cs⟩ := t
  simp [PathTree.insert]

theorem hasChain_nil (t : PathTree) : t.hasChain [] = true := by
  obtain ⟨cs⟩ := t
  simp [PathTree.hasChain]

theorem insert_insert :
    ∀ (p : Path) (t : PathTree), (t.insert p).insert p = t.insert p := by
  intro p
  induction p with
  | nil => intro t; rw [insert_nil, insert_nil]
  | cons k rest ih =>
    intro t
    obtain ⟨cs⟩ := t
    simp only [PathTree.insert, getChild_setChild_self, Option.getD_some]
    rw [ih, setChild_setChild]

theorem insertTimes_eq_insert :
    ∀ (n : Nat) (t : PathTree) (p : Path), insertTimes t p (n + 1) = t.insert p := by
  intro n
  induction n with
  | zero => intro t p; rfl
  | succ m ih =>
    intro t p
    show (insertTimes t p (m + 1)).insert p = t.insert p
    rw [ih, insert_insert]

theorem getChild_mem :
    ∀ (cs : List (String × PathTree)) k c, getChild cs k = some c → (k, c) ∈ cs := by
  intro cs k c h
  induction cs with
  | nil => simp [getChild] at h
  | cons kc cs ih =>
    obtain ⟨k1, c1⟩ := kc
    by_cases h1 : k1 = k
    · subst h1
      simp [getChild] at h
      simp [h]
    · simp [getChild, h1] at h
      simp [ih h]

theorem hasChain_insert_self :
    ∀ (p : Path) (t : PathTree), (t.insert p).hasChain p = true := by
  intro p
  induction p with
  | nil => intro t; exact hasChain_nil _
  | cons k rest ih =>
    intro t
    obtain ⟨cs⟩ := t
    simp only [PathTree.insert, PathTree.hasChain, getChild_setChild_self]
    exact ih _

theorem hasChain_insert_mono :
    ∀ (q p : Path) (t : PathTree),
      t.hasChain q = true → (t.insert p).hasChain q = true := by
  intro q
  induction q with
  | nil => intro p t _; exact hasChain_nil _
  | cons k1 qrest ih =>
    intro p t hq
    obtain ⟨cs⟩ := t
    cases p with
    | nil => rw [insert_nil]; exact hq
    | cons k rest =>
      simp only [PathTree.insert, PathTree.hasChain]
      by_cases hk : k1 = k
      · subst hk
        rw [getChild_setChild_self]
        simp only [PathTree.hasChain] at hq
        cases hg : getChild cs k1 with
        | none => simp [hg] at hq
        | some c0 =>
          rw [hg] at hq
          show ((((some c0).getD PathTree.empty).insert rest).hasChain qrest) = true
          simp only [Option.getD_some]
          exact ih rest c0 hq
      · rw [getChild_setChild_other cs k _ k1 hk]
        simpa [PathTree.hasChain] using hq

theorem hasChain_insertAll_mono :
    ∀ (ps : List Path) (t : PathTree) (p : Path),
      t.hasChain p = true → (insertAll ps t).hasChain p = true := by
  intro ps
  induction ps with
  | nil => intro t p h; exact h
  | cons q ps ih =>
    intro t p h
    exact ih _ _ (hasChain_insert_mono p q t h)

theorem hasChain_insertAll_of_mem :
    ∀ (ps : List Path) (t : PathTree) (p : Path),
      p ∈ ps → (insertAll ps t).hasChain p = true := by
  intro ps
  induction ps with
  | nil => intro t p h; simp at h
  | cons q ps ih =>
    intro t p h
    rcases List.mem_cons.mp h with h | h
    · subst h
      exact hasChain_insertAll_mono ps (t.insert p) p (hasChain_insert_self p t)
    · exact ih _ _ h

theorem list_ne_nil : ∀ t : PathTree, t.list ≠ []
  | .node [] => by simp [PathTree.list]
  | .node ((k, c) :: cs) => by
    have hc := list_ne_nil c
    simp [PathTree.list, listChildren, hc]

theorem mem_listChildren :
    ∀ (cs : List (String × PathTree)) (q : Path),
      q ∈ listChildren cs ↔
        ∃ k c, (k, c) ∈ cs ∧ ∃ r, r ∈ c.list ∧ q = k :: r := by
  intro cs
  induction cs with
  | nil => intro q; simp [listChildren]
  | cons kc cs ih =>
    obtain ⟨k, c⟩ := kc
    intro q
    simp only [listChildren, List.mem_append, List.mem_map, ih, List.mem_cons]
    constructor
    · rintro (⟨r, hr, rfl⟩ | ⟨k1, c1, h1, r, hr, rfl⟩)
      · exact ⟨k, c, Or.inl rfl, r, hr, rfl⟩
      · exact ⟨k1, c1, Or.inr h1, r, hr, rfl⟩
    · rintro ⟨k1, c1, h1 | h1, r, hr, rfl⟩
      · injection h1 with e1 e2
        subst e1
        subst e2
        exact Or.inl ⟨r, hr, rfl⟩
      · exact Or.inr ⟨k1, c1, h1, r, hr, rfl⟩

theorem cons_mem_list :
    ∀ (cs : List (String × PathTree)) k c r, (k, c) ∈ cs → r ∈ c.list →
      (k :: r) ∈ (PathTree.node cs).list := by
  intro cs k c r hm hr
  cases cs with
  | nil => simp at hm
  | cons kc cs =>
    simp only [PathTree.list]
    exact (mem_listChildren (kc :: cs) (k :: r)).mpr ⟨k, c, hm, r, hr, rfl⟩

theorem list_covers :
    ∀ (p : Path) (t : PathTree), t.hasChain p = true →
      ∃ q, q ∈ t.list ∧ p <+: q := by
  intro p
  induction p with
  | nil =>
    intro t _
    obtain ⟨q, hq⟩ := List.exists_mem_of_ne_nil t.list (list_ne_nil t)
    exact ⟨q, hq, List.nil_prefix⟩
  | cons k rest ih =>
    intro t hc
    obtain ⟨cs⟩ := t
    simp only [PathTree.hasChain] at hc
    cases hg : getChild cs k with
    | none => simp [hg] at hc
    | some c0 =>
      rw [hg] at hc
      obtain ⟨q, hq, hpre⟩ := ih c0 hc
      exact ⟨k :: q, cons_mem_list cs k c0 q (getChild_mem cs k c0 hg) hq,
        List.cons_prefix_cons.mpr ⟨rfl, hpre⟩⟩

theorem list_insert_single :
    ∀ p : Path, (PathTree.empty.insert p).list = [p] := by
  intro p
  induction p with
  | nil =>
    rw [insert_nil]
    simp [PathTree.empty, PathTree.list]
  | cons k rest ih =>
    have hstep : PathTree.empty.insert (k :: rest) =
        PathTree.node [(k, PathTree.empty.insert rest)] := by
      simp [PathTree.insert, PathTree.empty, getChild, setChild]
    rw [hstep]
    simp [PathTree.list, listChildren, ih]

theorem WF_empty : PathTree.empty.WF := by
  simp [PathTree.empty, PathTree.WF, ChildrenWF]

theorem getChild_none_iff :
    ∀ (cs : List (String × PathTree)) k,
      getChild cs k = none ↔ k ∉ cs.map Prod.fst := by
  intro cs k
  induction cs with
  | nil => simp [getChild]
  | cons kc cs ih =>
    obtain ⟨k1, c1⟩ := kc
    by_cases h : k1 = k
    · subst h
      simp [getChild]
    · simp [getChild, h, ih, Ne.symm h]

theorem setChild_of_none :
    ∀ (cs : List (String × PathTree)) k c, getChild cs k = none →
      setChild cs k c = cs ++ [(k, c)] := by
  intro cs k c h
  induction cs with
  | nil => simp [setChild]
  | cons kc cs ih =>
    obtain ⟨k1, c1⟩ := kc
    by_cases h1 : k1 = k
    · subst h1
      simp [getChild] at h
    · simp only [getChild, h1, if_neg, if_false] at h
      simp [setChild, h1, ih h]

theorem setChild_keys_of_some :
    ∀ (cs : List (String × PathTree)) k c c0, getChild cs k = some c0 →
      (setChild cs k c).map Prod.fst = cs.map Prod.fst := by
  intro cs k c c0 h
  induction cs with
  | nil => simp [getChild] at h
  | cons kc cs ih =>
    obtain ⟨k1, c1⟩ := kc
    by_cases h1 : k1 = k
    · subst h1
      simp [setChild]
    · simp only [getChild, h1, if_neg, if_false] at h
      simp [setChild, h1, ih h]

theorem ChildrenWF_mem :
    ∀ (cs : List (String × PathTree)), ChildrenWF cs →
      ∀ k c, (k, c) ∈ cs → PathTree.WF c := by
  intro cs
  induction cs with
  | nil => intro _ k c h; simp at h
  | cons kc cs ih =>
    obtain ⟨k0, c0⟩ := kc
    intro hw k c hm
    simp only [ChildrenWF] at hw
    rcases List.mem_cons.mp hm with e | m
    · injection e with e1 e2
      subst e2
      exact hw.1
    · exact ih hw.2 k c m

theorem ChildrenWF_setChild :
    ∀ (cs : List (String × PathTree)) k c, ChildrenWF cs → PathTree.WF c →
      ChildrenWF (setChild cs k c) := by
  intro cs
  induction cs with
  | nil =>
    intro k c _ hc
    simp only [setChild, ChildrenWF]
    exact ⟨hc, trivial⟩
  | cons kc cs ih =>
    obtain ⟨k0, c0⟩ := kc
    intro k c hw hc
    simp only [ChildrenWF] at hw
    by_cases h : k0 = k
    · simp only [setChild, h, if_pos, if_true, ChildrenWF]
      exact ⟨hc, hw.2⟩
    · simp only [setChild, h, if_neg, if_false, ChildrenWF]
      exact ⟨hw.1, ih k c hw.2 hc⟩

theorem WF_insert : ∀ (p : Path) (t : PathTree), t.WF → (t.insert p).WF := by
  intro p
  induction p with
  | nil =>
    intro t h
    rw [insert_nil]
    exact h
  | cons k rest ih =>
    intro t hwf
    obtain ⟨cs⟩ := t
    simp only [PathTree.WF] at hwf
    obtain ⟨hnd, hcw⟩ := hwf
    have hwfc0 : PathTree.WF ((getChild cs k).getD PathTree.empty) := by
      cases hg : getChild cs k with
      | none => simpa using WF_empty
      | some c0 => simpa using ChildrenWF_mem cs hcw k c0 (getChild_mem cs k c0 hg)
    have hwfc1 := ih _ hwfc0
    simp only [PathTree.insert, PathTree.WF]
    constructor
    · cases hg : getChild cs k with
      | some c0 =>
        rw [setChild_keys_of_some cs k _ c0 hg]
        exact hnd
      | none =>
        rw [setChild_of_none cs k _ hg]
        have hk : k ∉ cs.map Prod.fst := (getChild_none_iff cs k).mp hg
        simp [List.nodup_append, hnd]
        intro a ha
        exact hk (List.mem_map.mpr ⟨(k, a), ha, rfl⟩)
    · exact ChildrenWF_setChild cs k _ hcw hwfc1

theorem WF_insertAll :
    ∀ (ps : List Path) (t : PathTree), t.WF → (insertAll ps t).WF := by
  intro ps
  induction ps with
  | nil => intro t h; exact h
  | cons q ps ih => intro t h; exact ih _ (WF_insert q t h)

theorem nodup_pair_eq :
    ∀ (cs : List (String × PathTree)), (cs.map Prod.fst).Nodup →
      ∀ k c1 c2, (k, c1) ∈ cs → (k, c2) ∈ cs → c1 = c2 := by
  intro cs
  induction cs with
  | nil => intro _ k c1 c2 h; simp at h
  | cons kc cs ih =>
    obtain ⟨k0, c0⟩ := kc
    intro hnd k c1 c2 h1 h2
    simp only [List.map_cons, List.nodup_cons] at hnd
    obtain ⟨hk0, hnd⟩ := hnd
    rcases List.mem_cons.mp h1 with e1 | m1
    · rcases List.mem_cons.mp h2 with e2 | m2
      · injection e1 with ea eb
        injection e2 with ec ed
        rw [eb, ed]
      · injection e1 with ea eb
        subst ea
        exact absurd (List.mem_map.mpr ⟨(k, c2), m2, rfl⟩) hk0
    · rcases List.mem_cons.mp h2 with e2 | m2
      · injection e2 with ec ed
        subst ec
        exact absurd (List.mem_map.mpr ⟨(k, c1), m1, rfl⟩) hk0
      · exact ih hnd k c1 c2 m1 m2

theorem list_prefix_eq :
    ∀ (p1 : Path) (t : PathTree), t.WF → p1 ∈ t.list →
      ∀ p2, p2 ∈ t.list → p1 <+: p2 → p1 = p2 := by
  intro p1
  induction p1 with
  | nil =>
    intro t hwf h1 p2 h2 _
    obtain ⟨cs⟩ := t
    cases cs with
    | nil =>
      simp [PathTree.list] at h2
      exact h2.symm
    | cons kc cs2 =>
      simp only [PathTree.list] at h1
      rw [mem_listChildren] at h1
      obtain ⟨k, c, _, r, _, habs⟩ := h1
      cases habs
  | cons a as ih =>
    intro t hwf h1 p2 h2 hpre
    obtain ⟨cs⟩ := t
    cases cs with
    | nil =>
      simp [PathTree.list] at h1
    | cons kc cs2 =>
      simp only [PathTree.WF] at hwf
      obtain ⟨hnd, hcw⟩ := hwf
      simp only [PathTree.list] at h1 h2
      rw [mem_listChildren] at h1 h2
      obtain ⟨k1, c1, hm1, r1, hr1, heq1⟩ := h1
      obtain ⟨k2, c2, hm2, r2, hr2, heq2⟩ := h2
      injection heq1 with ea eb
      subst ea
      subst eb
      subst heq2
      obtain ⟨hk, hrp⟩ := List.cons_prefix_cons.mp hpre
      subst hk
      have hceq : c1 = c2 := nodup_pair_eq (kc :: cs2) hnd a c1 c2 hm1 hm2
      subst hceq
      have hwfc : c1.WF := ChildrenWF_mem (kc :: cs2) hcw a c1 hm1
      rw [ih c1 hwfc hr1 r2 hr2 hrp]

theorem insertAll_nil_paths :
    ∀ (ps : List Path) (t : PathTree), (∀ p ∈ ps, p = []) → insertAll ps t = t := by
  intro ps
  induction ps with
  | nil => intro t _; rfl
  | cons q ps ih =>
    intro t hall
    have hq : q = [] := hall q (by simp)
    subst hq
    show insertAll ps (t.insert []) = t
    rw [insert_nil]
    exact ih t (fun p hp => hall p (by simp [hp]))

/-! ### Dead ends make the `Source.Location` loop spin -/

theorem mappingScan_no_match :
    ∀ (n i : Nat) (cursor : YamlNode) (seg : String) (rest : Path),
      cursor.content.length - i ≤ n → i % 2 = 0 →
      NoKeyMatch cursor.content seg →
      mappingScan i cursor (seg :: rest) = some (cursor, seg :: rest) := by
  intro n
  induction n with
  | zero =>
    intro i cursor seg rest hn _ _
    rw [mappingScan.eq_def, dif_neg (by omega)]
  | succ m ih =>
    intro i cursor seg rest hn heven hnm
    by_cases h : i < cursor.content.length
    · rw [mappingScan.eq_def, dif_pos h]
      show (if (cursor.content.get ⟨i, h⟩).value = seg
        then _ else mappingScan (i + 2) cursor (seg :: rest)) = _
      rw [if_neg (hnm i h heven)]
      exact ih (i + 2) cursor seg rest (by omega) (by omega) hnm
    · rw [mappingScan.eq_def, dif_neg h]

theorem locLoop_deadEnd :
    ∀ (fuel : Nat) (cursor : YamlNode) (seg : String) (rest : Path),
      DeadEnd cursor seg →
      locLoop fuel cursor (seg :: rest) = .outOfFuel := by
  intro fuel
  induction fuel with
  | zero => intro cursor seg rest _; rfl
  | succ f ih =>
    intro cursor seg rest hd
    have hstep : locLoop (f + 1) cursor (seg :: rest) = locLoop f cursor (seg :: rest) := by
      rcases hd with h | h | ⟨hm, hnm⟩
      · show (match cursor.kind with
          | .document => _
          | .mapping => _
          | _ => locLoop f cursor (seg :: rest)) = locLoop f cursor (seg :: rest)
        rw [h]
      · show (match cursor.kind with
          | .document => _
          | .mapping => _
          | _ => locLoop f cursor (seg :: rest)) = locLoop f cursor (seg :: rest)
        rw [h]
      · show (match cursor.kind with
          | .document => _
          | .mapping => match mappingScan 0 cursor (seg :: rest) with
            | some (c2, p2) => locLoop f c2 p2
            | none => .panicked
          | _ => _) = locLoop f cursor (seg :: rest)
        rw [hm, mappingScan_no_match cursor.content.length 0 cursor seg rest
          (by omega) (by omega) hnm]
    rw [hstep]
    exact ih cursor seg rest hd

/-! ### Annotator lemmas -/

theorem findStr_annotateFields :
    ∀ (fields : Fields) (p : Path) (k : String),
      findStr (annotateFields p fields) k =
        (findStr fields k).map (annotate (p ++ [k]))
  | .nil => by intro p k; rfl
  | .cons key v rest => by
    intro p k
    have ih := findStr_annotateFields rest
    cases key with
    | mk kv kl =>
      cases kv with
      | str s =>
        by_cases h : s = k
        · subst h
          simp [annotateFields, findStr]
        · simp [annotateFields, findStr, h, ih]
      | num n => simp [annotateFields, findStr, ih]
      | boolean b => simp [annotateFields, findStr, ih]
      | nullv => simp [annotateFields, findStr, ih]
      | obj f2 => simp [annotateFields, findStr, ih]
      | arr ts => simp [annotateFields, findStr, ih]
      | set ts => simp [annotateFields, findStr, ih]

theorem descend_annotate :
    ∀ (ks : List String) (p : Path) (t t2 : Term),
      descend (annotate p t) ks = some t2 →
      t2.loc = some (pathFileS (p ++ ks)) := by
  intro ks
  induction ks with
  | nil =>
    intro p t t2 h
    simp only [descend, Option.some_inj] at h
    subst h
    cases t with
    | mk v l => simp [annotate, Term.loc]
  | cons k rest ih =>
    intro p t t2 h
    cases t with
    | mk v l =>
      cases v with
      | obj fields =>
        simp only [annotate, annotateValue, descend] at h
        rw [findStr_annotateFields fields p k] at h
        cases hf : findStr fields k with
        | none => rw [hf] at h; simp at h
        | some v0 =>
          rw [hf] at h
          simp only [Option.map] at h
          have := ih (p ++ [k]) v0 t2 h
          simpa [List.append_assoc] using this
      | str s => simp [annotate, annotateValue, descend] at h
      | num n => simp [annotate, annotateValue, descend] at h
      | boolean b => simp [annotate, annotateValue, descend] at h
      | nullv => simp [annotate, annotateValue, descend] at h
      | arr ts => simp [annotate, annotateValue, descend] at h
      | set ts => simp [annotate, annotateValue, descend] at h

mutual
theorem stripLoc_annotate : ∀ (p : Path) (t : Term), stripLoc (annotate p t) = stripLoc t
  | p, .mk v l => by
    simp only [annotate, stripLoc]
    rw [stripLocValue_annotateValue p v]

theorem stripLocValue_annotateValue :
    ∀ (p : Path) (v : Value), stripLocValue (annotateValue p v) = stripLocValue v
  | p, .obj fields => by
    simp only [annotateValue, stripLocValue]
    rw [stripLocFields_annotateFields p fields]
  | _, .str s => rfl
  | _, .num n => rfl
  | _, .boolean b => rfl
  | _, .nullv => rfl
  | _, .arr ts => rfl
  | _, .set ts => rfl

theorem stripLocFields_annotateFields :
    ∀ (p : Path) (fields : Fields),
      stripLocFields (annotateFields p fields) = stripLocFields fields
  | _, .nil => rfl
  | p, .cons k v rest => by
    cases k with
    | mk kv kl =>
      cases kv with
      | str s =>
        simp only [annotateFields, stripLocFields]
        rw [stripLoc_annotate (p ++ [s]) v, stripLocFields_annotateFields p rest]
      | num n =>
        simp only [annotateFields, stripLocFields]
        rw [stripLocFields_annotateFields p rest]
      | boolean b =>
        simp only [annotateFields, stripLocFields]
        rw [stripLocFields_annotateFields p rest]
      | nullv =>
        simp only [annotateFields, stripLocFields]
        rw [stripLocFields_annotateFields p rest]
      | obj f2 =>
        simp only [annotateFields, stripLocFields]
        rw [stripLocFields_annotateFields p rest]
      | arr ts =>
        simp only [annotateFields, stripLocFields]
        rw [stripLocFields_annotateFields p rest]
      | set ts =>
        simp only [annotateFields, stripLocFields]
        rw [stripLocFields_annotateFields p rest]
end

theorem decodeLoc_pathFileS (p : Path) : decodeLoc (pathFileS p) = some p := by
  show decodeLoc (String.mk (pathFile p)) = some p
  simp only [decodeLoc, pathFile]
  show (match stripPathTag ('p' :: 'a' :: 't' :: 'h' :: ':' :: encodePathS p) with
    | some v => decodePathS v
    | none => none) = some p
  rw [stripPathTag]
  exact decodePathS_encodePathS p

/-! ### Tracer lemmas -/

theorem used_insert_of_loc :
    ∀ (tracer : locationTracer) (t : Term) (p : Path),
      t.loc = some (pathFileS p) →
      tracer.used t = ⟨tracer.tree.insert p⟩ := by
  intro tracer t p h
  cases t with
  | mk v l =>
    simp only [Term.loc] at h
    subst h
    show (⟨tracer.tree.insert ((decodePathS (encodePathS p)).getD [])⟩ : locationTracer) =
      ⟨tracer.tree.insert p⟩
    rw [decodePathS_encodePathS]
    rfl

theorem used_hasChain_mono :
    ∀ (tracer : locationTracer) (t : Term) (p : Path),
      tracer.tree.hasChain p = true →
      ((tracer.used t).tree.hasChain p) = true := by
  intro tracer t p h
  cases t with
  | mk v l =>
    cases l with
    | none => exact h
    | some f =>
      show ((match stripPathTag f.toList with
        | none => tracer
        | some v2 =>
          (⟨tracer.tree.insert ((decodePathS v2).getD [])⟩ : locationTracer)).tree.hasChain p)
        = true
      cases stripPathTag f.toList with
      | none => exact h
      | some v2 => exact hasChain_insert_mono p _ tracer.tree h

/-! ### The claims -/

/-- Claim C1 (code bug): the spec says a dead end of `Source.Location`'s
descent — a scalar or sequence cursor with path segments remaining, or a
mapping with no key equal to the next segment — stops the descent and returns
the last node's location.  The `for len(path) > 0` loop in `main.go` instead
changes neither `cursor` nor `path` at such a dead end and therefore never
terminates: for every amount of fuel the loop is still running. -/
theorem claim_C1_dead_end_diverges :
    ∀ (source : Source) (seg : String) (rest : Path) (fuel : Nat),
      DeadEnd source.root seg →
      source.LocationFuel fuel (seg :: rest) = .outOfFuel := by
  intro source seg rest fuel hd
  show (match locLoop fuel source.root (seg :: rest) with
    | .done cursor => LocResult.ok ⟨source.file, cursor.line, cursor.column⟩
    | .panicked => LocResult.panicked
    | .outOfFuel => LocResult.outOfFuel) = .outOfFuel
  rw [locLoop_deadEnd fuel source.root seg rest hd]

/-- Witness for C1: a source whose root is a scalar node is a dead end for
path `["A"]`, and the loop is still running after 1000 iterations. -/
theorem claim_C1_witness :
    DeadEnd scalarSource.root "A" ∧
      scalarSource.LocationFuel 1000 ["A"] = .outOfFuel :=
  ⟨Or.inl rfl, claim_C1_dead_end_diverges scalarSource "A" [] 1000 (Or.inl rfl)⟩

/-- The recursive draft `location` of `infer.go` does stop at the same dead
end and returns the last reached node's location, as the spec describes. -/
theorem locationRec_scalar_dead_end :
    locationRec "template.yml" scalarSource.root ["A"] = ⟨"template.yml", 1, 1⟩ := by
  rw [locationRec.eq_def]
  rfl

/-- Claim C2: over any finite sequence of inserts into a fresh PathTree, List
returns no two distinct paths of which one is a strict prefix of the other;
inserting `["A"]` and `["A", "B"]` yields only `["A", "B"]`. -/
theorem claim_C2_prefix_free :
    (∀ (ps : List Path) (p1 p2 : Path),
        p1 ∈ (insertAll ps PathTree.empty).list →
        p2 ∈ (insertAll ps PathTree.empty).list →
        p1 <+: p2 → p1 = p2) ∧
      ((PathTree.empty.insert ["A"]).insert ["A", "B"]).list = [["A", "B"]] := by
  constructor
  · intro ps p1 p2 h1 h2 hp
    exact list_prefix_eq p1 _ (WF_insertAll ps _ WF_empty) h1 p2 h2 hp
  · rfl

/-- Witness for C2 at a concrete insert sequence. -/
theorem claim_C2_witness : (["A", "B"] : Path) = ["A", "B"] :=
  claim_C2_prefix_free.1 [["A"], ["A", "B"]] ["A", "B"] ["A", "B"]
    (by decide) (by decide) (List.prefix_refl _)

/-- Claim C3: every inserted path is a prefix of some listed path, and a
fresh tree holding exactly one inserted path lists exactly that path. -/
theorem claim_C3_coverage :
    (∀ (ps : List Path) (p : Path), p ∈ ps →
        ∃ q, q ∈ (insertAll ps PathTree.empty).list ∧ p <+: q) ∧
      ∀ p : Path, (PathTree.empty.insert p).list = [p] := by
  constructor
  · intro ps p hm
    exact list_covers p _ (hasChain_insertAll_of_mem ps PathTree.empty p hm)
  · exact list_insert_single

/-- Witness for C3 at concrete inserts. -/
theorem claim_C3_witness :
    (∃ q, q ∈ (insertAll [["a"], ["a", "b"]] PathTree.empty).list ∧
        (["a"] : Path) <+: q) ∧
      (PathTree.empty.insert ["x", "y"]).list = [["x", "y"]] :=
  ⟨claim_C3_coverage.1 [["a"], ["a", "b"]] ["a"] (by decide),
   claim_C3_coverage.2 ["x", "y"]⟩

/-- Claim C4: Insert is idempotent — inserting the same path a second or any
further time leaves the tree, and hence the result of List, identical to a
single insert. -/
theorem claim_C4_insert_idempotent :
    ∀ (t : PathTree) (p : Path) (n : Nat),
      insertTimes t p (n + 1) = t.insert p ∧
      (insertTimes t p (n + 1)).list = (t.insert p).list := by
  intro t p n
  refine ⟨insertTimes_eq_insert n t p, ?_⟩
  rw [insertTimes_eq_insert n t p]

/-- Claim C5: annotate-then-decode round trip — for every document term and
every node reachable from the root by string keys, after annotating from the
empty root path, decoding the metadata on the reached node yields exactly
that key sequence. -/
theorem claim_C5_roundtrip :
    ∀ (t : Term) (ks : List String) (t2 : Term),
      descend (annotate [] t) ks = some t2 →
      t2.loc.bind decodeLoc = some ks := by
  intro t ks t2 h
  rw [descend_annotate ks [] t t2 h]
  show decodeLoc (pathFileS ([] ++ ks)) = some ks
  rw [List.nil_append]
  exact decodeLoc_pathFileS ks

/-- Witness for C5 on the two-level sample document. -/
theorem claim_C5_witness :
    (Term.mk (Value.str "x") (some (pathFileS ["a", "b"]))).loc.bind decodeLoc =
      some ["a", "b"] :=
  claim_C5_roundtrip sampleDoc ["a", "b"]
    (Term.mk (Value.str "x") (some (pathFileS ["a", "b"]))) rfl

/-- Counterexample to claim C6 as stated: in the annotated document
`{a: "x"}` the scalar node reached at key `a` does carry an encoded path in
its metadata slot, which decodes to `["a"]`. -/
theorem claim_C6_counterexample :
    descend (annotate [] flatDoc) ["a"] =
      some (Term.mk (Value.str "x") (some (pathFileS ["a"]))) ∧
      decodeLoc (pathFileS ["a"]) = some ["a"] :=
  ⟨rfl, decodeLoc_pathFileS ["a"]⟩

/-- Claim C6 as amended: annotate stamps an encoded path on every node it
visits — the root and, recursively, every value under a plain-string object
key, whatever the node's kind — and recursion stops below non-object values:
a non-object term keeps its entire value (hence all descendants) unchanged,
only its own location slot being written. -/
theorem claim_C6_amended_annotation_scope :
    ∀ (p : Path) (t : Term),
      (annotate p t).loc = some (pathFileS p) ∧
      (∀ v l, t = Term.mk v l → v.isObj = false →
        annotate p t = Term.mk v (some (pathFileS p))) := by
  intro p t
  constructor
  · cases t with
    | mk v l => rfl
  · intro v l het hobj
    subst het
    cases v with
    | obj fields => simp [Value.isObj] at hobj
    | str s => rfl
    | num n => rfl
    | boolean b => rfl
    | nullv => rfl
    | arr ts => rfl
    | set ts => rfl

/-- Witness for the amended C6: a scalar leaf is annotated in place. -/
theorem claim_C6_witness :
    annotate ["k"] sampleLeaf = Term.mk (Value.str "x") (some (pathFileS ["k"])) :=
  (claim_C6_amended_annotation_scope ["k"] sampleLeaf).2 (Value.str "x") none rfl rfl

/-- Claim C7: on a unification event whose expression has exactly two
operands, both plugged operands are passed to the decode-and-record step, so
an encoded path carried by either operand ends up inserted in the tracer's
tree. -/
theorem claim_C7_unify_operands_used :
    ∀ (isBuiltin : Term → Bool) (tracer : locationTracer) (event : Event)
      (expr : Expr) (t1 t2 : Term) (p1 p2 : Path),
      event.op = .unifyOp → event.node = some expr →
      expr.operands = [t1, t2] →
      ((event.plug t1).loc = some (pathFileS p1) →
        ((locationTracer.trace isBuiltin tracer event).tree.hasChain p1) = true) ∧
      ((event.plug t2).loc = some (pathFileS p2) →
        ((locationTracer.trace isBuiltin tracer event).tree.hasChain p2) = true) := by
  intro B tracer event expr t1 t2 p1 p2 hop hnode hops
  have htrace : locationTracer.trace B tracer event =
      (tracer.used (event.plug t1)).used (event.plug t2) := by
    simp only [locationTracer.trace, hop, locationTracer.traceUnify, hnode, hops]
  constructor
  · intro h1
    rw [htrace]
    apply used_hasChain_mono
    rw [used_insert_of_loc tracer (event.plug t1) p1 h1]
    exact hasChain_insert_self p1 tracer.tree
  · intro h2
    rw [htrace, used_insert_of_loc _ (event.plug t2) p2 h2]
    exact hasChain_insert_self p2 _

/-- Witness for C7 on a concrete unification event. -/
theorem claim_C7_witness :
    ((locationTracer.trace (fun _ => false) newLocationTracer sampleEvent).tree.hasChain
        ["A"]) = true ∧
      ((locationTracer.trace (fun _ => false) newLocationTracer sampleEvent).tree.hasChain
        ["A", "B"]) = true :=
  ⟨(claim_C7_unify_operands_used (fun _ => false) newLocationTracer sampleEvent
      ⟨.list [.mk (.str "eq") none, .mk (.str "v1") (some (pathFileS ["A"])),
              .mk (.str "v2") (some (pathFileS ["A", "B"]))]⟩
      (.mk (.str "v1") (some (pathFileS ["A"])))
      (.mk (.str "v2") (some (pathFileS ["A", "B"])))
      ["A"] ["A", "B"] rfl rfl rfl).1 rfl,
   (claim_C7_unify_operands_used (fun _ => false) newLocationTracer sampleEvent
      ⟨.list [.mk (.str "eq") none, .mk (.str "v1") (some (pathFileS ["A"])),
              .mk (.str "v2") (some (pathFileS ["A", "B"]))]⟩
      (.mk (.str "v1") (some (pathFileS ["A"])))
      (.mk (.str "v2") (some (pathFileS ["A", "B"])))
      ["A"] ["A", "B"] rfl rfl rfl).2 rfl⟩

/-- Claim C8: when the decode-and-record step receives a value whose
metadata slot carries no encoded path — no location at all, or a file field
without the `path:` marker — the tracer is left unchanged and no error is
raised. -/
theorem claim_C8_no_metadata_skipped :
    ∀ (tracer : locationTracer) (t : Term),
      t.loc = none ∨ (∃ f, t.loc = some f ∧ stripPathTag f.toList = none) →
      locationTracer.used tracer t = tracer := by
  intro tracer t h
  cases t with
  | mk v l =>
    rcases h with h | ⟨f, hf, hs⟩
    · simp only [Term.loc] at h
      subst h
      rfl
    · simp only [Term.loc] at hf
      subst hf
      show (match stripPathTag f.toList with
        | none => tracer
        | some v2 =>
          (⟨tracer.tree.insert ((decodePathS v2).getD [])⟩ : locationTracer)) = tracer
      rw [hs]

/-- Witness for C8: a rule-internal literal with no location is skipped. -/
theorem claim_C8_witness :
    locationTracer.used newLocationTracer (Term.mk (Value.str "lit") none) =
      newLocationTracer :=
  claim_C8_no_metadata_skipped newLocationTracer (Term.mk (Value.str "lit") none)
    (Or.inl rfl)

/-- Claim C9: a PathTree into which nothing, or only the empty path, was
inserted lists exactly the empty path, and resolving the empty path yields
the location of the document root node. -/
theorem claim_C9_empty_tree_root :
    (∀ ps : List Path, (∀ p ∈ ps, p = []) →
        (insertAll ps PathTree.empty).list = [[]]) ∧
      ∀ (source : Source) (fuel : Nat),
        source.LocationFuel fuel [] =
          .ok ⟨source.file, source.root.line, source.root.column⟩ := by
  constructor
  · intro ps hall
    rw [insertAll_nil_paths ps PathTree.empty hall]
    rfl
  · intro source fuel
    cases fuel <;> rfl

/-- Witness for C9 at concrete inputs. -/
theorem claim_C9_witness :
    (insertAll [[], []] PathTree.empty).list = [[]] ∧
      scalarSource.LocationFuel 5 [] = .ok ⟨"template.yml", 1, 1⟩ :=
  ⟨claim_C9_empty_tree_root.1 [[], []] (by decide),
   claim_C9_empty_tree_root.2 scalarSource 5⟩

/-- Claim C10: annotate never alters a term's value — stripping every
location slot from the annotated term gives back the stripped original, so
object keys, nesting structure and scalar contents are untouched and only
location slots are written. -/
theorem claim_C10_annotate_frame :
    ∀ (p : Path) (t : Term), stripLoc (annotate p t) = stripLoc t :=
  stripLoc_annotate

end Inferattrs
